import Mathlib

/-! Shallow embedding of the bulk downloader core in `src/main.py`: the pure
helpers `build_format` and `human_bytes`, the per-item progress hook, and the
`DLWorker` queue loop with its cooperative stop flag.  The external
extraction library is a black box, so each queued item carries a *behavior*
describing what the library did for it (title-probe outcome, the raw progress
callbacks it delivered, and the final download outcome); the worker's emitted
signal trace is then a pure function of the row behaviors and of the point at
which the stop flag became visible to the loop's per-item check. -/

namespace BulkDL

/-- The unit labels of `human_bytes` (src/main.py:32). -/
def units : List String := ["B", "KB", "MB", "GB", "TB"]

/-- The scaling loop of `human_bytes` (src/main.py:33): divide by 1024 while
the value is at least 1024 and a further unit remains (the Python guard
`i < len(units) - 1` holds exactly when the unit list still has a successor
after the current position). -/
def hbLoop (q : ℚ) : List String → ℚ × String
  | [] => (q, "")
  | [u] => (q, u)
  | u :: u' :: rest => if 1024 ≤ q then hbLoop (q / 1024) (u' :: rest) else (q, u)

/-- One-decimal fixed-point rendering, as Python's `f"{n:.1f}"` produces on
the exactly-representable values reached here: round to the nearest tenth
and print the integer and tenths digits. -/
def fmt1 (q : ℚ) : String :=
  let t : Int := ⌊q * 10 + 1 / 2⌋
  toString (t / 10) ++ "." ++ toString (t % 10)

/-- Embedding of `human_bytes` (src/main.py:30-34).  The Python guard
`if not n or n <= 0` sends `None`, `0` and every negative value to `"0 B"`. -/
def human_bytes (n : Option ℚ) : String :=
  match n with
  | none => "0 B"
  | some q =>
    if q ≤ 0 then "0 B"
    else
      let r := hbLoop q units
      fmt1 r.1 ++ " " ++ r.2

/-- Embedding of `build_format` (src/main.py:26-28).  Python's truthiness
test `if max_res` treats both `None` and `0` as falsy, so a cap of `0`
takes the uncapped branch. -/
def build_format (max_res : Option Int) : String :=
  match max_res with
  | none => "bv*+ba/b"
  | some r =>
    if r = 0 then "bv*+ba/b"
    else "bv*[height<=" ++ toString r ++ "]+ba/b[height<=" ++ toString r ++ "]"

/-- Raw progress-callback dictionary delivered by the extraction library to
the hook (the keys read at src/main.py:56-64).  A missing key is `none`. -/
structure RawCB where
  status : Option String
  total_bytes : Option Nat
  total_bytes_estimate : Option Nat
  downloaded_bytes : Option Nat
  speed : Option ℚ
deriving DecidableEq

/-- Python's `x or y` on an optional number: `None` and `0` are falsy. -/
def pyOr (x : Option Nat) (y : Nat) : Nat :=
  match x with
  | some n => if n = 0 then y else n
  | none => y

/-- The total the hook divides by (src/main.py:58):
`d.get("total_bytes") or d.get("total_bytes_estimate") or 0`. -/
def effTotal (d : RawCB) : Nat :=
  pyOr d.total_bytes (pyOr d.total_bytes_estimate 0)

/-- The downloaded-byte count the hook reads (src/main.py:59):
`d.get("downloaded_bytes") or 0`. -/
def gotBytes (d : RawCB) : Nat :=
  pyOr d.downloaded_bytes 0

/-- The speed string (src/main.py:64):
`f"{human_bytes(d.get('speed'))}/s" if d.get("speed") else ""`. -/
def speedStr (sp : Option ℚ) : String :=
  match sp with
  | some s => if s = 0 then "" else human_bytes (some s) ++ "/s"
  | none => ""

/-- Normalized per-item progress payloads, mirroring the dictionaries the
worker emits through `sig_update` (src/main.py:53-84). -/
inductive Payload
  | starting
  | downloading (progress : Nat) (speed : String)
  | merging
  | titleUpd (title : String)
  | done
  | error (msg : String)
deriving DecidableEq

/-- The `progress` field of each emitted payload dictionary: `Starting`
carries `0`, `Merging` and `Done` carry `100`, `Downloading` its computed
percent; the title and error payloads carry no progress key. -/
def Payload.progress : Payload → Option Nat
  | .starting => some 0
  | .downloading p _ => some p
  | .merging => some 100
  | .done => some 100
  | .titleUpd _ => none
  | .error _ => none

/-- Embedding of the progress hook (src/main.py:55-67) as the payload it
emits, if any: only the `"downloading"` and `"finished"` callback phases
produce an emission, mirroring the `if st == ... elif st == ...` chain. -/
def hook (d : RawCB) : Option Payload :=
  match d.status with
  | none => none
  | some st =>
    if st = "downloading" then
      some (.downloading
        (if effTotal d ≠ 0 then gotBytes d * 100 / effTotal d else 0)
        (speedStr d.speed))
    else if st = "finished" then some .merging
    else none

/-- Outcome of `ydl.download` for one item, matching the `try/except` arms
at src/main.py:70-84: success, a `yt_dlp.utils.DownloadError`, or any other
exception, the latter two carrying the exception's string form. -/
inductive DLResult
  | ok
  | downloadError (msg : String)
  | unexpectedError (msg : String)
deriving DecidableEq

/-- One queued row together with the black-box extraction library's behavior
on it: the best-effort title probe's yield (`none` covers both a raised
exception, swallowed at src/main.py:76-77, and a missing/empty title), the
raw progress callbacks delivered while downloading, and the final outcome. -/
structure ItemBehavior where
  url : String
  probeTitle : Option String
  callbacks : List RawCB
  dlResult : DLResult
deriving DecidableEq

/-- A signal observable by the UI: `sig_update.emit(i, payload)` or the
run-finished `sig_done.emit()` (src/main.py:37-38). -/
inductive Ev
  | update (idx : Nat) (p : Payload)
  | sigDone
deriving DecidableEq

/-- The item index an event is tagged with (`sig_done` has none). -/
def Ev.idx? : Ev → Option Nat
  | .update i _ => some i
  | .sigDone => none

/-- The body of the worker loop for one item (src/main.py:52-84): emit
`Starting{0}`, then the title update if the probe yielded one, then whatever
the hook emitted for each raw callback, then the terminal payload chosen by
the `try/except` arms. -/
def processItem (i : Nat) (b : ItemBehavior) : List Ev :=
  Ev.update i .starting ::
    ((match b.probeTitle with
      | some t => [Ev.update i (.titleUpd t)]
      | none => []) ++
     b.callbacks.filterMap (fun d => (hook d).map (Ev.update i)) ++
     [match b.dlResult with
      | .ok => Ev.update i .done
      | .downloadError m => Ev.update i (.error ("Download failed: " ++ m))
      | .unexpectedError m =>
          Ev.update i (.error ("An unexpected error occurred: " ++ m))])

/-- Whether the per-item check `if self._stop: break` (src/main.py:51) sees
the flag set when it runs before item `i`: `stopAt = some k` means the stop
request became visible between the check before item `k - 1`'s processing
and the check before item `k`'s, so every check from index `k` on sees it;
`none` means no stop request during the run. -/
def stopObserved (stopAt : Option Nat) (i : Nat) : Bool :=
  match stopAt with
  | some k => k ≤ i
  | none => false

/-- The worker loop from index `i` over the remaining rows
(src/main.py:50-84): the stop flag is consulted only at the top of each
iteration, never mid-item. -/
def runFrom (i : Nat) (bs : List ItemBehavior) (stopAt : Option Nat) : List Ev :=
  match bs with
  | [] => []
  | b :: rest =>
    if stopObserved stopAt i then []
    else processItem i b ++ runFrom (i + 1) rest stopAt

/-- Embedding of `DLWorker.run` (src/main.py:48-85): iterate the rows from
index `0`, then emit the single run-finished signal unconditionally. -/
def run (rows : List ItemBehavior) (stopAt : Option Nat) : List Ev :=
  runFrom 0 rows stopAt ++ [Ev.sigDone]

/-- Worker state as built by `DLWorker.__init__` (src/main.py:40-44); `opts`
is the option dictionary passed through unchanged, kept abstract as its
string form. -/
structure DLWorker where
  rows : List ItemBehavior
  opts : List (String × String)
  _stop : Bool
deriving DecidableEq

/-- Embedding of `DLWorker.stop` (src/main.py:46): it only sets the flag. -/
def DLWorker.stop (w : DLWorker) : DLWorker :=
  { w with _stop := true }

/-- A payload is terminal when it is `Done` or `Error`. -/
def Payload.isTerminal : Payload → Bool
  | .done => true
  | .error _ => true
  | _ => false

/-- An event is a terminal per-item event when its payload is terminal. -/
def isTerminalEv : Ev → Bool
  | .update _ p => p.isTerminal
  | .sigDone => false

/-- A terminal event for the specific item index `j`. -/
def isTerminalFor (j : Nat) : Ev → Bool
  | .update i p => i = j && p.isTerminal
  | .sigDone => false

/-- The run-finished signal, as a predicate for counting. -/
def isSigDone : Ev → Bool
  | .sigDone => true
  | .update _ _ => false

/-- A title-resolution event for item `j`. -/
def isTitleFor (j : Nat) : Ev → Bool
  | .update i (.titleUpd _) => i = j
  | _ => false

/-- The percent carried by an event, when it is a `Downloading` event. -/
def evPct : Ev → Option Nat
  | .update _ (.downloading p _) => some p
  | _ => none

/-- The percents carried by the `Downloading` events of a trace, in order. -/
def downloadingPcts (evs : List Ev) : List Nat :=
  evs.filterMap evPct

/-- The percent a raw callback contributes through the hook, if any. -/
def cbPct (d : RawCB) : Option Nat :=
  (hook d).bind fun p =>
    match p with
    | .downloading pct _ => some pct
    | _ => none

/-! Helper lemmas shared by the claim theorems. -/

lemma hook_cases (d : RawCB) (p : Payload) (h : hook d = some p) :
    (∃ pct sp, p = .downloading pct sp) ∨ p = .merging := by
  unfold hook at h
  split at h
  · exact absurd h (by simp)
  · split_ifs at h
    · exact Or.inl ⟨_, _, (Option.some_inj.mp h).symm⟩
    · exact Or.inl ⟨_, _, (Option.some_inj.mp h).symm⟩
    · exact Or.inr (Option.some_inj.mp h).symm

lemma hook_not_terminal (d : RawCB) (p : Payload) (h : hook d = some p) :
    p.isTerminal = false := by
  rcases hook_cases d p h with ⟨pct, sp, rfl⟩ | rfl <;> rfl

lemma hook_not_title (d : RawCB) (p : Payload) (h : hook d = some p) (t : String) :
    p ≠ .titleUpd t := by
  rcases hook_cases d p h with ⟨pct, sp, rfl⟩ | rfl <;> simp

lemma mem_hookEvs {i : Nat} {cbs : List RawCB} {e : Ev}
    (h : e ∈ cbs.filterMap (fun d => (hook d).map (Ev.update i))) :
    ∃ d p, d ∈ cbs ∧ hook d = some p ∧ e = .update i p := by
  rcases List.mem_filterMap.mp h with ⟨d, hd, hmap⟩
  rcases Option.map_eq_some'.mp hmap with ⟨p, hp, he⟩
  exact ⟨d, p, hd, hp, he.symm⟩

lemma mem_processItem {i : Nat} {b : ItemBehavior} {e : Ev}
    (h : e ∈ processItem i b) : ∃ p, e = .update i p := by
  obtain ⟨u, pt, cbs, dr⟩ := b
  unfold processItem at h
  rcases List.mem_cons.mp h with rfl | h
  · exact ⟨_, rfl⟩
  rcases List.mem_append.mp h with h | h
  · rcases List.mem_append.mp h with h | h
    · cases pt with
      | none => simp at h
      | some t =>
        simp only [List.mem_singleton] at h
        exact ⟨_, h⟩
    · obtain ⟨d, p, _, _, he⟩ := mem_hookEvs h
      exact ⟨p, he⟩
  · simp only [List.mem_singleton] at h
    cases dr <;> exact ⟨_, h⟩

lemma countP_hookEvs_zero (i : Nat) (cbs : List RawCB) (q : Ev → Bool)
    (hq : ∀ d p, hook d = some p → q (.update i p) = false) :
    (cbs.filterMap (fun d => (hook d).map (Ev.update i))).countP q = 0 := by
  rw [List.countP_eq_zero]
  intro e he
  rcases mem_hookEvs he with ⟨d, p, _, hp, rfl⟩
  simp [hq d p hp]

lemma countP_processItem_terminal (i : Nat) (b : ItemBehavior) :
    (processItem i b).countP isTerminalEv = 1 := by
  obtain ⟨u, pt, cbs, dr⟩ := b
  have h0 := countP_hookEvs_zero i cbs isTerminalEv
    (fun d p hp => by simp [isTerminalEv, hook_not_terminal d p hp])
  cases pt <;> cases dr <;>
    simp [processItem, List.countP_cons, List.countP_append, h0, isTerminalEv,
      Payload.isTerminal]

lemma countP_terminalFor_of_all_idx {l : List Ev} {i : Nat}
    (hall : ∀ e ∈ l, ∃ p, e = .update i p) (j : Nat) :
    l.countP (isTerminalFor j) = if j = i then l.countP isTerminalEv else 0 := by
  induction l with
  | nil => simp
  | cons e l ih =>
    obtain ⟨p, rfl⟩ := hall e (List.mem_cons_self _ _)
    have ih' := ih (fun e he => hall e (List.mem_cons_of_mem _ he))
    by_cases hji : j = i
    · subst hji
      simp [List.countP_cons, ih', isTerminalFor, isTerminalEv]
    · have : (i = j) = False := by simp [Ne.symm hji]
      simp [List.countP_cons, ih', isTerminalFor, hji, this]

lemma countP_processItem_terminalFor (i j : Nat) (b : ItemBehavior) :
    (processItem i b).countP (isTerminalFor j) = if j = i then 1 else 0 := by
  rw [countP_terminalFor_of_all_idx (fun e he => mem_processItem he) j,
      countP_processItem_terminal]

lemma countP_processItem_sigDone (i : Nat) (b : ItemBehavior) :
    (processItem i b).countP isSigDone = 0 := by
  rw [List.countP_eq_zero]
  intro e he
  obtain ⟨p, rfl⟩ := mem_processItem he
  simp [isSigDone]

lemma runFrom_cons_none (i : Nat) (b : ItemBehavior) (rest : List ItemBehavior) :
    runFrom i (b :: rest) none = processItem i b ++ runFrom (i + 1) rest none := by
  simp [runFrom, stopObserved]

lemma mem_runFrom {e : Ev} {s : Option Nat} :
    ∀ {bs : List ItemBehavior} {i : Nat}, e ∈ runFrom i bs s →
      ∃ j p, e = .update j p ∧ i ≤ j ∧ j < i + bs.length := by
  intro bs
  induction bs with
  | nil => intro i h; simp [runFrom] at h
  | cons b rest ih =>
    intro i h
    rw [runFrom] at h
    split at h
    · simp at h
    · rcases List.mem_append.mp h with h | h
      · obtain ⟨p, rfl⟩ := mem_processItem h
        exact ⟨i, p, rfl, le_refl i, by simp⟩
      · obtain ⟨j, p, rfl, hij, hlt⟩ := ih h
        refine ⟨j, p, rfl, by omega, ?_⟩
        simp only [List.length_cons]
        omega

lemma countP_runFrom_none_terminal :
    ∀ (bs : List ItemBehavior) (i : Nat),
      (runFrom i bs none).countP isTerminalEv = bs.length := by
  intro bs
  induction bs with
  | nil => intro i; simp [runFrom]
  | cons b rest ih =>
    intro i
    rw [runFrom_cons_none, List.countP_append, countP_processItem_terminal, ih]
    simp [Nat.add_comm]

lemma countP_runFrom_none_terminalFor (j : Nat) :
    ∀ (bs : List ItemBehavior) (i : Nat),
      (runFrom i bs none).countP (isTerminalFor j) =
        if i ≤ j ∧ j < i + bs.length then 1 else 0 := by
  intro bs
  induction bs with
  | nil =>
    intro i
    simp only [runFrom, List.countP_nil, List.length_nil]
    split_ifs <;> omega
  | cons b rest ih =>
    intro i
    rw [runFrom_cons_none, List.countP_append, countP_processItem_terminalFor, ih]
    simp only [List.length_cons]
    split_ifs <;> omega

lemma countP_runFrom_sigDone (s : Option Nat) :
    ∀ (bs : List ItemBehavior) (i : Nat),
      (runFrom i bs s).countP isSigDone = 0 := by
  intro bs
  induction bs with
  | nil => intro i; simp [runFrom]
  | cons b rest ih =>
    intro i
    rw [runFrom]
    split
    · simp
    · rw [List.countP_append, countP_processItem_sigDone, ih]

lemma mem_filterMap_idx {l : List Ev} {j : Nat} (h : j ∈ l.filterMap Ev.idx?) :
    ∃ p, Ev.update j p ∈ l := by
  rcases List.mem_filterMap.mp h with ⟨e, he, hidx⟩
  cases e with
  | update k p =>
    simp only [Ev.idx?, Option.some_inj] at hidx
    subst hidx
    exact ⟨p, he⟩
  | sigDone => simp [Ev.idx?] at hidx

lemma pairwise_le_of_all_eq {l : List Nat} {i : Nat} (h : ∀ x ∈ l, x = i) :
    l.Pairwise (· ≤ ·) := by
  induction l with
  | nil => exact List.Pairwise.nil
  | cons x l ih =>
    refine List.pairwise_cons.mpr
      ⟨?_, ih fun y hy => h y (List.mem_cons_of_mem _ hy)⟩
    intro y hy
    rw [h x (List.mem_cons_self _ _), h y (List.mem_cons_of_mem _ hy)]

lemma sorted_idx_runFrom (s : Option Nat) :
    ∀ (bs : List ItemBehavior) (i : Nat),
      ((runFrom i bs s).filterMap Ev.idx?).Pairwise (· ≤ ·) := by
  intro bs
  induction bs with
  | nil => intro i; simp [runFrom]
  | cons b rest ih =>
    intro i
    rw [runFrom]
    split
    · simp
    · rw [List.filterMap_append]
      refine List.pairwise_append.mpr ⟨?_, ih (i + 1), ?_⟩
      · refine pairwise_le_of_all_eq (i := i) ?_
        intro x hx
        obtain ⟨p, hp⟩ := mem_filterMap_idx hx
        obtain ⟨p', he⟩ := mem_processItem hp
        simpa [Ev.idx?] using congrArg Ev.idx? he
      · intro a ha c hc
        obtain ⟨p, hp⟩ := mem_filterMap_idx ha
        obtain ⟨p2, he⟩ := mem_processItem hp
        have h1 : a = i := by simpa [Ev.idx?] using congrArg Ev.idx? he
        obtain ⟨p3, hp3⟩ := mem_filterMap_idx hc
        obtain ⟨j, p4, he4, hij, _⟩ := mem_runFrom hp3
        have h2 : c = j := by simpa [Ev.idx?] using congrArg Ev.idx? he4
        omega

lemma runFrom_stop_eq_take :
    ∀ (bs : List ItemBehavior) (i k : Nat),
      runFrom i bs (some k) = runFrom i (bs.take (k - i)) none := by
  intro bs
  induction bs with
  | nil => intro i k; simp [runFrom]
  | cons b rest ih =>
    intro i k
    by_cases hki : k ≤ i
    · have h0 : k - i = 0 := by omega
      rw [h0]
      simp [runFrom, stopObserved, hki]
    · have hk : k - i = (k - (i + 1)) + 1 := by omega
      rw [hk]
      simp only [List.take_succ_cons]
      rw [runFrom, if_neg (by simp [stopObserved, hki]), runFrom_cons_none,
          ih (i + 1) k]

lemma getLast?_cons_append_concat (x t : Ev) (A B : List Ev) :
    (x :: (A ++ B ++ [t])).getLast? = some t := by
  rw [← List.cons_append, List.getLast?_concat]

lemma getLast?_processItem (i : Nat) (b : ItemBehavior) :
    (processItem i b).getLast? =
      some (match b.dlResult with
        | .ok => Ev.update i .done
        | .downloadError m => Ev.update i (.error ("Download failed: " ++ m))
        | .unexpectedError m =>
            Ev.update i (.error ("An unexpected error occurred: " ++ m))) := by
  obtain ⟨u, pt, cbs, dr⟩ := b
  cases dr <;> exact getLast?_cons_append_concat _ _ _ _

lemma cbPct_eq {d : RawCB} {p : Nat} (hp : cbPct d = some p) :
    p = if effTotal d ≠ 0 then gotBytes d * 100 / effTotal d else 0 := by
  unfold cbPct hook at hp
  split at hp
  · simp at hp
  · split_ifs at hp with h1 h2
    · rw [Option.some_bind] at hp
      rw [if_pos h2]
      exact (Option.some_inj.mp hp).symm
    · rw [Option.some_bind] at hp
      rw [if_neg h2]
      exact (Option.some_inj.mp hp).symm
    · rw [Option.some_bind] at hp
      simp at hp
    · simp at hp

lemma pcts_hookEvs (i : Nat) : ∀ cbs : List RawCB,
    (cbs.filterMap (fun d => (hook d).map (Ev.update i))).filterMap evPct =
      cbs.filterMap cbPct := by
  intro cbs
  induction cbs with
  | nil => rfl
  | cons d rest ih =>
    rw [List.filterMap_cons, List.filterMap_cons]
    cases hd : hook d with
    | none => simp only [cbPct, hd, Option.map_none', Option.none_bind, ih]
    | some p =>
      cases p <;>
        simp only [cbPct, hd, Option.map_some', Option.some_bind,
          List.filterMap_cons, evPct, ih]

lemma pcts_processItem (i : Nat) (b : ItemBehavior) :
    downloadingPcts (processItem i b) = b.callbacks.filterMap cbPct := by
  obtain ⟨u, pt, cbs, dr⟩ := b
  unfold downloadingPcts processItem
  cases pt <;> cases dr <;>
    simp [List.filterMap_append, List.filterMap_cons, evPct, pcts_hookEvs]

lemma pcts_mono_bounded {T : Nat} (hT : 0 < T) :
    ∀ cbs : List RawCB,
      (∀ d ∈ cbs, effTotal d = T) → (∀ d ∈ cbs, gotBytes d ≤ T) →
      (cbs.map gotBytes).Pairwise (· ≤ ·) →
      (cbs.filterMap cbPct).Pairwise (· ≤ ·) ∧
        ∀ p ∈ cbs.filterMap cbPct, p ≤ 100 := by
  intro cbs
  induction cbs with
  | nil => intro _ _ _; simp
  | cons d rest ih =>
    intro htot hle hmono
    rw [List.map_cons, List.pairwise_cons] at hmono
    obtain ⟨hdr, hmono'⟩ := hmono
    obtain ⟨ihp, ihb⟩ :=
      ih (fun x hx => htot x (List.mem_cons_of_mem _ hx))
        (fun x hx => hle x (List.mem_cons_of_mem _ hx)) hmono'
    have htd := htot d (List.mem_cons_self _ _)
    have hld := hle d (List.mem_cons_self _ _)
    have hT0 : effTotal d ≠ 0 := by omega
    rw [List.filterMap_cons]
    cases hd : cbPct d with
    | none => exact ⟨ihp, ihb⟩
    | some p =>
      have hpe : p = gotBytes d * 100 / T := by
        rw [cbPct_eq hd, if_pos hT0, htd]
      have hq_of : ∀ q ∈ rest.filterMap cbPct,
          ∃ d', d' ∈ rest ∧ q = gotBytes d' * 100 / T := by
        intro q hq
        obtain ⟨d', hd', hq'⟩ := List.mem_filterMap.mp hq
        have htd' := htot d' (List.mem_cons_of_mem _ hd')
        have hT0' : effTotal d' ≠ 0 := by omega
        exact ⟨d', hd', by rw [cbPct_eq hq', if_pos hT0', htd']⟩
      refine ⟨List.pairwise_cons.mpr ⟨?_, ihp⟩, ?_⟩
      · intro q hq
        obtain ⟨d', hd', rfl⟩ := hq_of q hq
        rw [hpe]
        exact Nat.div_le_div_right
          (mul_le_mul_right' (hdr _ (List.mem_map_of_mem _ hd')) 100)
      · intro q hq
        rcases List.mem_cons.mp hq with rfl | hq
        · rw [hpe]
          calc gotBytes d * 100 / T ≤ T * 100 / T :=
              Nat.div_le_div_right (mul_le_mul_right' hld 100)
            _ = 100 := Nat.mul_div_cancel_left 100 hT
        · exact ihb q hq

/-! Concrete callbacks and row behaviors used by the claim witnesses. -/

/-- A `"finished"` phase callback. -/
def cbFin : RawCB := ⟨some "finished", some 200, none, some 200, none⟩

/-- A `"downloading"` phase callback at the halfway point. -/
def cbHalf : RawCB := ⟨some "downloading", some 200, none, some 100, none⟩

/-- A row whose download succeeds after a title probe and two callbacks. -/
def bOkEx : ItemBehavior := ⟨"https://a.example/v", some "A title", [cbHalf, cbFin], .ok⟩

/-- A row whose download fails with an extraction-library error. -/
def bErrEx : ItemBehavior := ⟨"https://b.example/v", none, [], .downloadError "geo blocked"⟩

/-- A row whose download fails with a non-library exception. -/
def bUnexpEx : ItemBehavior := ⟨"https://c.example/v", none, [], .unexpectedError "boom"⟩

/-- A two-row queue. -/
def exRows : List ItemBehavior := [bOkEx, bErrEx]

/-! Claim theorems. -/

/-- C1: a run over `N` queued rows with no stop request emits exactly `N`
terminal per-item events (`Done` or `Error`) — exactly one for each index
`j < N` — keeps the item indices of the emitted events in non-decreasing
order (so every event of item `i` precedes every event of item `i + 1`),
and emits exactly one run-finished signal, after everything else. -/
theorem run_no_stop_protocol (rows : List ItemBehavior) (j : Nat)
    (hj : j < rows.length) :
    (run rows none).countP isTerminalEv = rows.length ∧
    (run rows none).countP (isTerminalFor j) = 1 ∧
    ((run rows none).filterMap Ev.idx?).Pairwise (· ≤ ·) ∧
    (run rows none).countP isSigDone = 1 ∧
    (run rows none).getLast? = some Ev.sigDone := by
  unfold run
  refine ⟨?_, ?_, ?_, ?_, ?_⟩
  · rw [List.countP_append, countP_runFrom_none_terminal]
    simp [List.countP_cons, isTerminalEv]
  · rw [List.countP_append, countP_runFrom_none_terminalFor,
        if_pos ⟨Nat.zero_le j, by omega⟩]
    simp [List.countP_cons, isTerminalFor]
  · rw [List.filterMap_append,
        show ([Ev.sigDone] : List Ev).filterMap Ev.idx? = [] from rfl,
        List.append_nil]
    exact sorted_idx_runFrom none rows 0
  · rw [List.countP_append, countP_runFrom_sigDone]
    rfl
  · exact List.getLast?_concat _

/-- Witness for C1 at a concrete two-row queue and index `1`. -/
theorem run_no_stop_protocol_witness :
    1 < exRows.length ∧
    ((run exRows none).countP isTerminalEv = exRows.length ∧
     (run exRows none).countP (isTerminalFor 1) = 1 ∧
     ((run exRows none).filterMap Ev.idx?).Pairwise (· ≤ ·) ∧
     (run exRows none).countP isSigDone = 1 ∧
     (run exRows none).getLast? = some Ev.sigDone) :=
  ⟨by decide, run_no_stop_protocol exRows 1 (by decide)⟩

/-- C2: when the stop request becomes visible at the boundary check before
item `k`, the trace coincides with the no-stop trace of the first `k` rows:
every item before `k` still reaches exactly one terminal event, no emitted
event carries an index `≥ k` (items from `k` on emit nothing), and the
single run-finished signal is still emitted, last.  The boundary-only check
is visible in the first conjunct: the stopped trace contains only whole
per-item blocks, never a truncated one. -/
theorem run_stop_boundary (rows : List ItemBehavior) (k : Nat)
    (hk : k ≤ rows.length) (j : Nat) (hj : j < k) :
    run rows (some k) = run (rows.take k) none ∧
    (∀ e ∈ run rows (some k), ∀ m, Ev.idx? e = some m → m < k) ∧
    (run rows (some k)).countP (isTerminalFor j) = 1 ∧
    (run rows (some k)).countP isSigDone = 1 ∧
    (run rows (some k)).getLast? = some Ev.sigDone := by
  have htl : (rows.take k).length = k := by
    rw [List.length_take]
    omega
  have hrun : run rows (some k) = run (rows.take k) none := by
    unfold run
    rw [runFrom_stop_eq_take rows 0 k, Nat.sub_zero]
  refine ⟨hrun, ?_, ?_, ?_, ?_⟩
  · intro e he m hm
    rw [hrun] at he
    unfold run at he
    rcases List.mem_append.mp he with he | he
    · obtain ⟨j', p, rfl, _, hlt⟩ := mem_runFrom he
      simp only [Ev.idx?, Option.some_inj] at hm
      omega
    · simp only [List.mem_singleton] at he
      subst he
      simp [Ev.idx?] at hm
  · rw [hrun]
    unfold run
    rw [List.countP_append, countP_runFrom_none_terminalFor,
        if_pos ⟨Nat.zero_le j, by omega⟩]
    simp [List.countP_cons, isTerminalFor]
  · rw [hrun]
    unfold run
    rw [List.countP_append, countP_runFrom_sigDone]
    rfl
  · rw [hrun]
    unfold run
    exact List.getLast?_concat _

/-- Witness for C2: stop observed before item `1` of the two-row queue. -/
theorem run_stop_boundary_witness :
    (1 ≤ exRows.length ∧ 0 < 1) ∧
    (run exRows (some 1) = run (exRows.take 1) none ∧
     (∀ e ∈ run exRows (some 1), ∀ m, Ev.idx? e = some m → m < 1) ∧
     (run exRows (some 1)).countP (isTerminalFor 0) = 1 ∧
     (run exRows (some 1)).countP isSigDone = 1 ∧
     (run exRows (some 1)).getLast? = some Ev.sigDone) :=
  ⟨⟨by decide, by decide⟩, run_stop_boundary exRows 1 (by decide) 0 (by decide)⟩

/-- C3: each item's block begins with `Starting` carrying percent `0` and
ends with the terminal payload selected by the download outcome — `Done`
with percent `100` on success, an `Error` message prefixed
`"Download failed: "` on an extraction-library error, and prefixed
`"An unexpected error occurred: "` on any other exception — and the loop
advances to the next item whatever the outcome was. -/
theorem processItem_protocol (i : Nat) (b : ItemBehavior) :
    (processItem i b).head? = some (.update i .starting) ∧
    Payload.progress .starting = some 0 ∧
    (b.dlResult = .ok →
      (processItem i b).getLast? = some (.update i .done) ∧
      Payload.progress .done = some 100) ∧
    (∀ m, b.dlResult = .downloadError m →
      (processItem i b).getLast? =
        some (.update i (.error ("Download failed: " ++ m)))) ∧
    (∀ m, b.dlResult = .unexpectedError m →
      (processItem i b).getLast? =
        some (.update i (.error ("An unexpected error occurred: " ++ m)))) ∧
    (∀ rest, runFrom i (b :: rest) none =
      processItem i b ++ runFrom (i + 1) rest none) := by
  refine ⟨rfl, rfl, ?_, ?_, ?_, fun rest => runFrom_cons_none i b rest⟩
  · intro hok
    rw [getLast?_processItem, hok]
    exact ⟨rfl, rfl⟩
  · intro m hm
    rw [getLast?_processItem, hm]
  · intro m hm
    rw [getLast?_processItem, hm]

/-- Witness for C3 on the three outcome kinds at concrete rows. -/
theorem processItem_protocol_witness :
    (bOkEx.dlResult = .ok ∧ bErrEx.dlResult = .downloadError "geo blocked" ∧
     bUnexpEx.dlResult = .unexpectedError "boom") ∧
    (processItem 0 bOkEx).head? = some (.update 0 .starting) ∧
    (processItem 0 bOkEx).getLast? = some (.update 0 .done) ∧
    (processItem 1 bErrEx).getLast? =
      some (.update 1 (.error ("Download failed: " ++ "geo blocked"))) ∧
    (processItem 2 bUnexpEx).getLast? =
      some (.update 2 (.error ("An unexpected error occurred: " ++ "boom"))) :=
  ⟨⟨rfl, rfl, rfl⟩,
   (processItem_protocol 0 bOkEx).1,
   ((processItem_protocol 0 bOkEx).2.2.1 rfl).1,
   (processItem_protocol 1 bErrEx).2.2.2.1 "geo blocked" rfl,
   (processItem_protocol 2 bUnexpEx).2.2.2.2.1 "boom" rfl⟩

/-- C9: `stop` is idempotent — iterating it any positive number of times
equals calling it once — it sets the flag, the flag stays set under any
further `stop` calls, and nothing besides the flag changes. -/
theorem stop_idempotent_monotone :
    (∀ w : DLWorker, w.stop.stop = w.stop) ∧
    (∀ (w : DLWorker) (n : Nat), DLWorker.stop^[n + 1] w = w.stop) ∧
    (∀ w : DLWorker, (w.stop)._stop = true) ∧
    (∀ w : DLWorker, w.stop.rows = w.rows ∧ w.stop.opts = w.opts) := by
  refine ⟨fun w => rfl, ?_, fun w => rfl, fun w => ⟨rfl, rfl⟩⟩
  intro w n
  induction n with
  | zero => rfl
  | succ n ih =>
    rw [Function.iterate_succ_apply', ih]
    rfl

/-- C10: `human_bytes` sends `None` and every value `≤ 0` — strictly
negative inputs included — to `"0 B"`. -/
theorem human_bytes_nonpos (q : ℚ) (hq : q ≤ 0) :
    human_bytes (some q) = "0 B" ∧ human_bytes none = "0 B" :=
  ⟨by simp [human_bytes, hq], rfl⟩

/-- Witness for C10 at the strictly negative input `-5`. -/
theorem human_bytes_nonpos_witness :
    (-5 : ℚ) ≤ 0 ∧
    (human_bytes (some (-5)) = "0 B" ∧ human_bytes none = "0 B") :=
  ⟨by decide, human_bytes_nonpos (-5) (by decide)⟩

/-- A behavior whose single raw callback reports more downloaded bytes
than its stated total. -/
def cexOver : ItemBehavior :=
  ⟨"https://d.example/v", none,
   [⟨some "downloading", some 100, none, some 200, none⟩], .ok⟩

/-- A behavior whose estimated total grows between two callbacks. -/
def cexShrink : ItemBehavior :=
  ⟨"https://e.example/v", none,
   [⟨some "downloading", none, some 100, some 50, none⟩,
    ⟨some "downloading", none, some 200, some 60, none⟩], .ok⟩

/-- C4 as stated is false on the code: the hook performs no clamping, so a
callback reporting 200 of 100 bytes emits `Downloading` percent `200 > 100`
within a single item's event sequence, and a total estimate that grows
between callbacks makes the successive percents drop from 50 to 30. -/
theorem downloading_pct_unbounded_cex :
    Ev.update 0 (.downloading 200 "") ∈ processItem 0 cexOver ∧
    100 < 200 ∧
    downloadingPcts (processItem 0 cexShrink) = [50, 30] ∧
    ¬ (downloadingPcts (processItem 0 cexShrink)).Pairwise (· ≤ ·) := by
  refine ⟨by decide, by decide, by decide, ?_⟩
  rw [show downloadingPcts (processItem 0 cexShrink) = [50, 30] from by decide]
  decide

/-- A behavior with a stable total of 200 and non-decreasing byte counts
that never exceed it. -/
def bStable : ItemBehavior :=
  ⟨"https://f.example/v", none,
   [⟨some "downloading", some 200, none, some 50, none⟩,
    ⟨some "downloading", some 200, none, some 100, none⟩], .ok⟩

/-- C4 amended: each `Downloading` percent is the raw unclamped quotient
`downloaded * 100 / total`; provided the callbacks of an item share one
fixed positive total, report non-decreasing downloaded byte counts, and
never exceed that total, the percents within the item's event sequence are
monotonically non-decreasing and never exceed 100.  For raw callback
sequences outside these conditions the bounds fail, as the counterexample
shows. -/
theorem downloading_pct_mono_of_stable_total (i : Nat) (b : ItemBehavior)
    (T : Nat) (hT : 0 < T)
    (htot : ∀ d ∈ b.callbacks, effTotal d = T)
    (hle : ∀ d ∈ b.callbacks, gotBytes d ≤ T)
    (hmono : (b.callbacks.map gotBytes).Pairwise (· ≤ ·)) :
    (downloadingPcts (processItem i b)).Pairwise (· ≤ ·) ∧
    ∀ p ∈ downloadingPcts (processItem i b), p ≤ 100 := by
  rw [pcts_processItem]
  exact pcts_mono_bounded hT b.callbacks htot hle hmono

/-- Witness for the amended C4 at a concrete well-behaved callback pair. -/
theorem downloading_pct_mono_witness :
    (0 < 200 ∧ (∀ d ∈ bStable.callbacks, effTotal d = 200) ∧
     (∀ d ∈ bStable.callbacks, gotBytes d ≤ 200) ∧
     (bStable.callbacks.map gotBytes).Pairwise (· ≤ ·)) ∧
    ((downloadingPcts (processItem 0 bStable)).Pairwise (· ≤ ·) ∧
     ∀ p ∈ downloadingPcts (processItem 0 bStable), p ≤ 100) :=
  ⟨⟨by decide, by decide, by decide, by decide⟩,
   downloading_pct_mono_of_stable_total 0 bStable 200 (by decide) (by decide)
     (by decide) (by decide)⟩

/-- A positive optional value: the spec treats an absent *or zero* total as
unknown. -/
def knownPos : Option Nat → Option Nat
  | some t => if t = 0 then none else some t
  | none => none

/-- Specification-side total selection: the actual total when known,
otherwise the estimated total, otherwise unknown. -/
def totalKnown (d : RawCB) : Option Nat :=
  match knownPos d.total_bytes with
  | some t => some t
  | none => knownPos d.total_bytes_estimate

/-- Specification-side percent: `floor(downloaded_bytes * 100 / total)`
over the rationals when a total is known, else `0`. -/
def pctSpec (d : RawCB) : Nat :=
  match totalKnown d with
  | some T => Nat.floor ((gotBytes d * 100 : ℚ) / (T : ℚ))
  | none => 0

lemma totalKnown_effTotal (d : RawCB) :
    totalKnown d = if effTotal d = 0 then none else some (effTotal d) := by
  unfold totalKnown knownPos effTotal pyOr
  cases d.total_bytes with
  | none =>
    cases d.total_bytes_estimate with
    | none => simp
    | some u => by_cases hu : u = 0 <;> simp [hu]
  | some t =>
    by_cases ht : t = 0
    · cases d.total_bytes_estimate with
      | none => simp [ht]
      | some u => by_cases hu : u = 0 <;> simp [ht, hu]
    · simp [ht]

lemma natDiv_eq_floor (a b : Nat) :
    Nat.floor ((a : ℚ) / (b : ℚ)) = a / b := by
  rw [Nat.floor_div_nat, Nat.floor_natCast]

lemma pct_code_eq_spec (d : RawCB) :
    (if effTotal d ≠ 0 then gotBytes d * 100 / effTotal d else 0) = pctSpec d := by
  unfold pctSpec
  rw [totalKnown_effTotal]
  by_cases h0 : effTotal d = 0
  · simp [h0]
  · have hL : (if effTotal d ≠ 0 then gotBytes d * 100 / effTotal d else 0) =
        gotBytes d * 100 / effTotal d := if_pos h0
    rw [hL, if_neg h0]
    show gotBytes d * 100 / effTotal d =
      Nat.floor ((gotBytes d * 100 : ℚ) / (effTotal d : ℚ))
    rw [show ((gotBytes d : ℚ) * 100) = ((gotBytes d * 100 : ℕ) : ℚ) from by
          push_cast; ring,
        natDiv_eq_floor]

/-- C5: for every raw callback in the `"downloading"` phase, the hook emits
a `Downloading` event whose percent is exactly
`floor(downloaded_bytes * 100 / total)` where the actual total is preferred
over the estimate, and `0` when neither total is known (absent or zero). -/
theorem hook_pct_floor (d : RawCB) (h : d.status = some "downloading") :
    hook d = some (.downloading (pctSpec d) (speedStr d.speed)) ∧
    (totalKnown d = none → pctSpec d = 0) := by
  constructor
  · unfold hook
    rw [h]
    dsimp only
    rw [if_pos rfl, pct_code_eq_spec]
  · intro hn
    unfold pctSpec
    rw [hn]

/-- A `"downloading"` callback reporting 1 byte of 3. -/
def cbThird : RawCB := ⟨some "downloading", some 3, none, some 1, none⟩

/-- Witness for C5 at the 1-of-3-bytes callback. -/
theorem hook_pct_floor_witness :
    cbThird.status = some "downloading" ∧
    (hook cbThird = some (.downloading (pctSpec cbThird) (speedStr cbThird.speed)) ∧
     (totalKnown cbThird = none → pctSpec cbThird = 0)) :=
  ⟨rfl, hook_pct_floor cbThird rfl⟩

/-- Whether `sub` occurs as a contiguous run inside `l`. -/
def listContainsSub (sub l : List Char) : Bool :=
  (List.range (l.length + 1)).any fun i => sub.isPrefixOf (l.drop i)

/-- Substring occurrence test on strings, over their character lists. -/
def strContains (s sub : String) : Bool :=
  listContainsSub sub.data s.data

lemma strContains_of_data (s sub : String) (A C : List Char)
    (h : s.data = A ++ sub.data ++ C) : strContains s sub = true := by
  unfold strContains listContainsSub
  rw [List.any_eq_true]
  refine ⟨A.length, List.mem_range.mpr ?_, ?_⟩
  · rw [h]
    simp only [List.length_append]
    omega
  · rw [h, List.append_assoc, List.drop_left]
    exact List.isPrefixOf_iff_prefix.mpr (List.prefix_append _ _)

/-- C6 as stated is false at the cap `some 0`: Python's falsy test sends a
zero cap to the uncapped branch, so the returned selector contains neither
the literal `0` nor any height filter. -/
theorem build_format_zero_cap_cex :
    build_format (some 0) = "bv*+ba/b" ∧
    strContains (build_format (some 0)) (toString (0 : Int)) = false ∧
    strContains (build_format (some 0)) "height<=" = false :=
  ⟨rfl, by decide, by decide⟩

/-- C6 amended: for every *nonzero* cap `r` the selector is the capped
template and contains the height filter with the literal value of `r`,
while `None` — and, beyond the claim's wording, the falsy cap `0` — yields
the uncapped selector with no height filter.  `build_format` is a total
function on `Option Int`. -/
theorem build_format_cap (r : Int) (hr : r ≠ 0) :
    build_format (some r) =
      "bv*[height<=" ++ toString r ++ "]+ba/b[height<=" ++ toString r ++ "]" ∧
    strContains (build_format (some r)) ("height<=" ++ toString r) = true ∧
    strContains (build_format (some r)) (toString r) = true ∧
    build_format none = "bv*+ba/b" ∧
    build_format (some 0) = "bv*+ba/b" ∧
    strContains (build_format none) "height<=" = false := by
  have hfmt : build_format (some r) =
      "bv*[height<=" ++ toString r ++ "]+ba/b[height<=" ++ toString r ++ "]" := by
    unfold build_format
    dsimp only
    rw [if_neg hr]
  have hsplit : ("bv*[height<=" : String).data =
      ("bv*[" : String).data ++ ("height<=" : String).data := by decide
  refine ⟨hfmt, ?_, ?_, rfl, rfl, by decide⟩
  · rw [hfmt]
    refine strContains_of_data _ _ ("bv*[" : String).data
      (("]+ba/b[height<=" ++ toString r ++ "]" : String).data) ?_
    simp [String.data_append, hsplit, List.append_assoc]
  · rw [hfmt]
    refine strContains_of_data _ _ ("bv*[height<=" : String).data
      (("]+ba/b[height<=" ++ toString r ++ "]" : String).data) ?_
    simp [String.data_append, List.append_assoc]

/-- Witness for the amended C6 at the cap `1080`. -/
theorem build_format_cap_witness :
    (1080 : Int) ≠ 0 ∧
    (build_format (some 1080) =
       "bv*[height<=" ++ toString (1080 : Int) ++ "]+ba/b[height<=" ++
         toString (1080 : Int) ++ "]" ∧
     strContains (build_format (some 1080))
       ("height<=" ++ toString (1080 : Int)) = true ∧
     strContains (build_format (some 1080)) (toString (1080 : Int)) = true ∧
     build_format none = "bv*+ba/b" ∧
     build_format (some 0) = "bv*+ba/b" ∧
     strContains (build_format none) "height<=" = false) :=
  ⟨by decide, build_format_cap 1080 (by decide)⟩

lemma hbLoop_last : ∀ (us : List String) (u : String) (q : ℚ),
    (hbLoop q (u :: us)).1 < 1024 ∨
      (u :: us).getLast? = some (hbLoop q (u :: us)).2 := by
  intro us
  induction us with
  | nil =>
    intro u q
    right
    rfl
  | cons u' rest ih =>
    intro u q
    by_cases hq : 1024 ≤ q
    · have he : hbLoop q (u :: u' :: rest) = hbLoop (q / 1024) (u' :: rest) := by
        simp [hbLoop, hq]
      rw [he]
      rcases ih u' (q / 1024) with h | h
      · exact Or.inl h
      · right
        rw [List.getLast?_cons_cons]
        exact h
    · have he : hbLoop q (u :: u' :: rest) = (q, u) := by
        simp [hbLoop, hq]
      rw [he]
      exact Or.inl (by simpa using not_le.mp hq)

/-- C7: the zero and `None` inputs render as `"0 B"`, `1536` as `"1.5 KB"`,
`1024²` as `"1.0 MB"`; in general a positive input renders as the
one-decimal formatting of the value left by the repeated-division-by-1024
loop, and that value is below 1024 unless the unit list was exhausted at
`"TB"`. -/
theorem human_bytes_spec (q : ℚ) (hq : 0 < q) :
    human_bytes (some 0) = "0 B" ∧
    human_bytes none = "0 B" ∧
    human_bytes (some 1536) = "1.5 KB" ∧
    human_bytes (some (1024 * 1024)) = "1.0 MB" ∧
    human_bytes (some q) = fmt1 (hbLoop q units).1 ++ " " ++ (hbLoop q units).2 ∧
    ((hbLoop q units).1 < 1024 ∨ (hbLoop q units).2 = "TB") := by
  refine ⟨by simp [human_bytes], rfl, ?_, ?_, ?_, ?_⟩
  · have h1 : hbLoop (1536 : ℚ) units = (3 / 2, "KB") := by
      norm_num [hbLoop, units]
    have h2 : ⌊(3 : ℚ) / 2 * 10 + 1 / 2⌋ = 15 := by
      rw [Int.floor_eq_iff]
      constructor <;> norm_num
    simp only [human_bytes, h1, fmt1, h2]
    norm_num
    rfl
  · have h1 : hbLoop ((1024 * 1024 : ℚ)) units = (1, "MB") := by
      norm_num [hbLoop, units]
    have h2 : ⌊(1 : ℚ) * 10 + 1 / 2⌋ = 10 := by
      rw [Int.floor_eq_iff]
      constructor <;> norm_num
    simp only [human_bytes, h1, fmt1, h2]
    norm_num
    rfl
  · simp [human_bytes, not_le.mpr hq]
  · have h := hbLoop_last ["KB", "MB", "GB", "TB"] "B" q
    rcases h with h | h
    · exact Or.inl h
    · right
      have h' : some "TB" = some (hbLoop q units).2 := h
      exact (Option.some_inj.mp h').symm

/-- Witness for C7 at the positive input `2048`. -/
theorem human_bytes_spec_witness :
    (0 : ℚ) < 2048 ∧
    (human_bytes (some 0) = "0 B" ∧
     human_bytes none = "0 B" ∧
     human_bytes (some 1536) = "1.5 KB" ∧
     human_bytes (some (1024 * 1024)) = "1.0 MB" ∧
     human_bytes (some 2048) =
       fmt1 (hbLoop 2048 units).1 ++ " " ++ (hbLoop 2048 units).2 ∧
     ((hbLoop 2048 units).1 < 1024 ∨ (hbLoop 2048 units).2 = "TB")) :=
  ⟨by decide, human_bytes_spec 2048 (by decide)⟩

lemma countP_processItem_titleFor (i : Nat) (b : ItemBehavior) :
    (processItem i b).countP (isTitleFor i) =
      match b.probeTitle with
      | some _ => 1
      | none => 0 := by
  obtain ⟨u, pt, cbs, dr⟩ := b
  have h0 := countP_hookEvs_zero i cbs (isTitleFor i)
    (fun d p hp => by
      rcases hook_cases d p hp with ⟨pct, sp, rfl⟩ | rfl <;> rfl)
  cases pt <;> cases dr <;>
    simp [processItem, List.countP_cons, List.countP_append, h0, isTitleFor]

lemma no_error_of_ok {i : Nat} {b : ItemBehavior} (hok : b.dlResult = .ok)
    (m : String) : Ev.update i (.error m) ∉ processItem i b := by
  intro hmem
  obtain ⟨u, pt, cbs, dr⟩ := b
  simp only at hok
  subst hok
  unfold processItem at hmem
  rcases List.mem_cons.mp hmem with heq | hmem
  · simp at heq
  rcases List.mem_append.mp hmem with hmem | hmem
  · rcases List.mem_append.mp hmem with hmem | hmem
    · cases pt <;> simp at hmem
    · obtain ⟨d, p, _, hp, he⟩ := mem_hookEvs hmem
      have hpe : Payload.error m = p := by
        injection he with _ h2
      rcases hook_cases d p hp with ⟨pct, sp, hpd⟩ | hpd <;>
        rw [hpd] at hpe <;> simp at hpe
  · simp at hmem

/-- C8: a failed (or titleless) probe is silent — no title event and no
error event for the item beyond its terminal one, which the item still
reaches (and which is `Done`, not `Error`, whenever the download itself
succeeds) — while a successful probe yields exactly one title event,
emitted directly after `Starting` and before every download-phase event. -/
theorem probe_title_best_effort (i : Nat) (b : ItemBehavior) :
    (b.probeTitle = none →
      (processItem i b).countP (isTitleFor i) = 0 ∧
      (processItem i b).countP isTerminalEv = 1 ∧
      (b.dlResult = .ok → ∀ m, Ev.update i (.error m) ∉ processItem i b)) ∧
    (∀ t, b.probeTitle = some t →
      (processItem i b).countP (isTitleFor i) = 1 ∧
      (processItem i b).take 2 =
        [Ev.update i .starting, Ev.update i (.titleUpd t)]) := by
  constructor
  · intro hn
    refine ⟨?_, countP_processItem_terminal i b,
      fun hok m => no_error_of_ok hok m⟩
    rw [countP_processItem_titleFor, hn]
  · intro t ht
    refine ⟨?_, ?_⟩
    · rw [countP_processItem_titleFor, ht]
    · unfold processItem
      rw [ht]
      rfl

/-- Witness for C8 on a failed probe and on a successful one. -/
theorem probe_title_best_effort_witness :
    (bErrEx.probeTitle = none ∧ bOkEx.probeTitle = some "A title") ∧
    ((processItem 1 bErrEx).countP (isTitleFor 1) = 0 ∧
     (processItem 1 bErrEx).countP isTerminalEv = 1 ∧
     (processItem 0 bOkEx).countP (isTitleFor 0) = 1 ∧
     (processItem 0 bOkEx).take 2 =
       [Ev.update 0 .starting, Ev.update 0 (.titleUpd "A title")]) :=
  ⟨⟨rfl, rfl⟩,
   ⟨((probe_title_best_effort 1 bErrEx).1 rfl).1,
    ((probe_title_best_effort 1 bErrEx).1 rfl).2.1,
    ((probe_title_best_effort 0 bOkEx).2 "A title" rfl).1,
    ((probe_title_best_effort 0 bOkEx).2 "A title" rfl).2⟩⟩

end BulkDL
